import Mathlib

set_option maxRecDepth 8000

/-!
Shallow embedding of the research-newsfeed aggregation pipeline
(daily_digest.py, digest_helpers.py, sources/*.py) and proofs about it.

Text is modelled as `List Char`; Python timestamps (UTC datetimes) are
modelled as integers counting seconds from `datetime.min`, so `datetime.min`
itself is `0` and every later datetime is positive.  Python `dict.get`
returning a possibly-missing value is modelled with `Option`.
-/

namespace Newsfeed

abbrev Str := List Char

/-- Python truthiness of `a or b` for optional strings: `None` and the empty
string are falsy, so `a or b` yields `b` in those cases (models chains such as
`en.get("id") or en.get("link") or ""` in daily_digest.py). -/
def orElseStr (a : Option Str) (b : Str) : Str :=
  match a with
  | none => b
  | some s => if s = [] then b else s

/-- Python `(x or "")` for an optional string (`None` and `""` collapse to `""`). -/
def pyStrO (a : Option Str) : Str :=
  orElseStr a []

/-- Python `str.strip()`: drop whitespace from both ends. -/
def stripStr (s : Str) : Str :=
  ((s.dropWhile Char.isWhitespace).reverse.dropWhile Char.isWhitespace).reverse

def lowerChars (s : Str) : Str := s.map Char.toLower

/-- Boolean test that `needle` starts the list `hay`. -/
def startsWithB : Str → Str → Bool
  | [], _ => true
  | _ :: _, [] => false
  | a :: as, b :: bs => a == b && startsWithB as bs

/-- Boolean substring test (`needle in hay` in Python). -/
def containsSub (needle : Str) : Str → Bool
  | [] => needle.isEmpty
  | c :: t => startsWithB needle (c :: t) || containsSub needle t

/-- Modelled from the spec: `utils.any_keyword_match` is imported by every
adapter but the module defining it is missing from src/ (src/utils.py holds
only mailing helpers).  Per spec section 4.1: true if `keywords` is empty
(no restriction) or any keyword occurs case-insensitively in `text`. -/
def anyKeywordMatch (text : Str) (kws : List Str) : Bool :=
  kws.isEmpty || kws.any (fun k => containsSub (lowerChars k) (lowerChars text))

/-- Modelled from the spec: `utils.none_keyword_match`, missing from src/.
Per spec section 4.1: true iff no keyword occurs case-insensitively in
`text`; vacuously true on an empty keyword list. -/
def noneKeywordMatch (text : Str) (kws : List Str) : Bool :=
  kws.all (fun k => !containsSub (lowerChars k) (lowerChars text))

/-- Modelled from the spec: `utils.is_recent`, missing from src/.  Per spec
section 4.2: true when `lookbackDays ≤ 0`, true when the timestamp is absent,
otherwise true iff `now - timestamp` is at most `lookbackDays` worth of time
(seconds). -/
def isRecent (published : Option Int) (lookbackDays : Int) (now : Int) : Bool :=
  if lookbackDays ≤ 0 then true
  else
    match published with
    | none => true
    | some t => now - t ≤ lookbackDays * 86400

/-- The uniform item record produced by every adapter (spec section 3);
fields that Python reads with `dict.get` are optional. -/
structure Item where
  id : Option Str
  title : Option Str
  summary : Option Str
  published : Option Int
  link : Option Str
  pdf : Option Str
deriving DecidableEq

/-- Sort key of `daily_digest.fetch_all`:
`x.get("published") or dt.datetime.min` (an absent timestamp becomes the
minimal datetime, i.e. `0` in this model). -/
def pubKey (it : Item) : Int := it.published.getD 0

/-- Insertion step of a stable descending sort on `pubKey`: the new element
goes before the first element whose key is not larger, so earlier elements
win ties.  Together with `sortItemsDesc` this models Python's stable
`items.sort(key=lambda x: x.get("published") or dt.datetime.min, reverse=True)`. -/
def insertItemDesc (a : Item) : List Item → List Item
  | [] => [a]
  | b :: t => if pubKey a < pubKey b then b :: insertItemDesc a t else a :: b :: t

/-- Stable newest-first sort used on every bucket by `fetch_all`. -/
def sortItemsDesc : List Item → List Item
  | [] => []
  | a :: t => insertItemDesc a (sortItemsDesc t)

/-- Dedup key of `daily_digest.dedupe_buckets`:
`en.get("id") or en.get("link") or ""` (Python `or`, so empty strings fall
through). -/
def itemKey (it : Item) : Str := orElseStr it.id (orElseStr it.link [])

/-- Loop body of `dedupe_buckets`: walk the bucket keeping the first item for
each `(name, id or link or "")` key. -/
def dedupeGo (name : Str) (seen : List (Str × Str)) : List Item → List Item
  | [] => []
  | e :: t =>
    if (name, itemKey e) ∈ seen then dedupeGo name seen t
    else e :: dedupeGo name ((name, itemKey e) :: seen) t

/-- `dedupe_buckets` applied to one bucket. -/
def dedupeItems (name : Str) (l : List Item) : List Item := dedupeGo name [] l

/-- The per-bucket aggregation steps of `main`: `fetch_all`'s newest-first
sort followed by `dedupe_buckets`. -/
def aggregate (bm : List (Str × List Item)) : List (Str × List Item) :=
  bm.map (fun b => (b.1, dedupeItems b.1 (sortItemsDesc b.2)))

/-- Python `s.rsplit(" ", 1)[0]`: everything before the last space, or the
whole string when it holds no space. -/
def cutAtLastSpace (l : Str) : Str :=
  if ' ' ∈ l then ((l.reverse.dropWhile (fun c => c != ' ')).drop 1).reverse else l

/-- The summary truncation of `render_html` / `render_plaintext` (budget 280)
and of the Hacker News adapter (budget 240):
`if len(summary) > budget: summary = summary[:budget].rsplit(" ", 1)[0] + "…"`. -/
def truncateSummary (budget : Nat) (s : Str) : Str :=
  if budget < s.length then cutAtLastSpace (s.take budget) ++ ['…'] else s

/-- The property the spec asserts of an over-budget truncation: the emitted
summary is a cut followed by an ellipsis, and the cut point is at or before
the last space within the budget (stated from the spec's words, to be
compared with `truncateSummary`). -/
def specCutOK (budget : Nat) (s : Str) : Prop :=
  ∃ cut a b, truncateSummary budget s = cut ++ ['…'] ∧
    s.take budget = a ++ ' ' :: b ∧ cut.length ≤ a.length ∧ ' ' ∉ b

/-- `_iter_limited` of daily_digest.py: `None` or a non-positive limit yields
everything, a positive limit yields `items[:limit]`. -/
def limitItems (limit : Option Int) (items : List Item) : List Item :=
  match limit with
  | none => items
  | some n => if n ≤ 0 then items else items.take n.toNat

/-- The count shown in a `render_html` heading:
`len(items) if (max_per_source is None or max_per_source <= 0) else
min(len(items), max_per_source)`. -/
def shownCount (cap : Option Int) (items : List Item) : Nat :=
  match cap with
  | none => items.length
  | some n => if n ≤ 0 then items.length else min items.length n.toNat

/-- The cap description in a `render_plaintext` heading:
`"all" if (max_per_source is None or max_per_source <= 0) else
str(max_per_source)`. -/
def capDesc (cap : Option Int) : Str :=
  match cap with
  | none => "all".toList
  | some n => if n ≤ 0 then "all".toList else (toString n).toList

def natToStr (n : Nat) : Str := (toString n).toList

/-- One escaped character of `render_html`'s `safe_title`.  The Python code
chains `.replace("&", "&amp;").replace("<", "&lt;").replace(">", "&gt;")`;
since no replacement string contains a character replaced by a later step,
the sequential replaces equal this single per-character expansion. -/
def escChar (c : Char) : Str :=
  if c = '&' then "&amp;".toList
  else if c = '<' then "&lt;".toList
  else if c = '>' then "&gt;".toList
  else [c]

/-- `safe_title` escaping of `render_html`. -/
def escapeHtml (s : Str) : Str := (s.map escChar).flatten

/-- The link chosen by `render_html`: `it.get("pdf") or it.get("link") or "#"`. -/
def htmlLink (it : Item) : Str := orElseStr it.pdf (orElseStr it.link ("#".toList))

/-- The stripped title of an item as read by both renderers:
`(it.get("title") or "").strip()`. -/
def renderTitle (it : Item) : Str := stripStr (pyStrO it.title)

/-- The truncated summary as read by both renderers:
`(it.get("summary") or "").strip()` followed by the 280-character cut. -/
def renderSummary (it : Item) : Str := truncateSummary 280 (stripStr (pyStrO it.summary))

/-- One `<li>` entry of `render_html`. -/
def liFor (it : Item) : Str :=
  "<li><a href=\"".toList ++ htmlLink it ++ "\">".toList ++ escapeHtml (renderTitle it)
    ++ "</a>".toList
    ++ (if renderSummary it = [] then []
        else "<br><small>".toList ++ renderSummary it ++ "</small>".toList)
    ++ "</li>".toList

/-- The parts `render_html` appends for one bucket: nothing for an empty
bucket, else a heading carrying `shownCount`, the list opener, one `<li>` per
item up to the cap, and the list closer. -/
def renderHtmlBucket (cap : Option Int) (name : Str) (items : List Item) : List Str :=
  if items = [] then []
  else ("<h3>".toList ++ name ++ " (".toList ++ natToStr (shownCount cap items) ++ ")</h3>".toList)
    :: "<ul>".toList :: ((limitItems cap items).map liFor ++ ["</ul>".toList])

/-- All parts of `render_html` (joined with newlines in Python); the header
takes the formatted date as a parameter. -/
def renderHtmlParts (cap : Option Int) (today : Str) (bm : List (Str × List Item)) : List Str :=
  ("<h2>AI &amp; AI Security — Daily Digest (".toList ++ today ++ ")</h2>".toList)
    :: bm.flatMap (fun b => renderHtmlBucket cap b.1 b.2)

/-- The plaintext link: `it.get("pdf") or it.get("link") or ""`. -/
def plainLink (it : Item) : Str := orElseStr it.pdf (orElseStr it.link [])

/-- The 1 to 3 lines `render_plaintext` emits per item: the dashed title,
then the link and the truncated summary when non-empty. -/
def plainItemLines (it : Item) : List Str :=
  ("- ".toList ++ renderTitle it)
    :: ((if plainLink it = [] then [] else [("  ".toList ++ plainLink it)])
        ++ (if renderSummary it = [] then [] else [("  ".toList ++ renderSummary it)]))

/-- The lines `render_plaintext` appends for one bucket: nothing for an empty
bucket, else a heading showing `capDesc` (not the count actually shown), the
item lines up to the cap, and a blank separator line. -/
def renderPlainBucket (cap : Option Int) (name : Str) (items : List Item) : List Str :=
  if items = [] then []
  else (name ++ " (showing ".toList ++ capDesc cap ++ ")".toList)
    :: ((limitItems cap items).flatMap plainItemLines ++ [[]])

/-- The global filter record built by `fetch_all` and the dashboard. -/
structure GlobalFilters where
  lookbackDays : Int
  includeKeywords : List Str
  excludeKeywords : List Str
  priorityAuthors : List Str
deriving DecidableEq

/-- The per-source keyword/lookback configuration slice.  A field is `none`
when the key is absent from the YAML block; `some kws` stores the value of
Python's `config.get(key) or []` (so a present `null` or `[]` is `some []`). -/
structure SrcConfig where
  includeKw : Option (List Str)
  excludeKw : Option (List Str)
  lookbackDays : Option Int
deriving DecidableEq

/-- `_effective_keywords` of hn.py / hackernoon.py / reddit.py /
openreview.py: a key present in the source config wins (even when its list is
empty), an absent key inherits the global list. -/
def effectiveKeywords (cfgVal : Option (List Str)) (globalVal : List Str) : List Str :=
  match cfgVal with
  | some l => l
  | none => globalVal

/-- One parsed feed entry handed to an adapter.  The provider transport and
date parsing are the external boundary: `publishedParsed` is the result of
`dateparser.parse(...)`, already `none` on a missing or unparsable date, and
`summary` is the post-HTML-cleaning text. -/
structure FeedEntry where
  title : Option Str
  summary : Option Str
  publishedParsed : Option Int
  link : Option Str
  id : Option Str
  comments : Str
deriving DecidableEq

/-- Per-entry processing of sources/hn.py `fetch`: lookback override, the
240-character summary cut, effective include/exclude keywords with the
present-key-wins policy, then item construction (the in-pass `seen` dedup is
applied by the caller). -/
def hnProcessEntry (cfg : SrcConfig) (gf : GlobalFilters) (now : Int) (e : FeedEntry) :
    Option Item :=
  let lookback := cfg.lookbackDays.getD gf.lookbackDays
  let includeKw := effectiveKeywords cfg.includeKw gf.includeKeywords
  let excludeKw := effectiveKeywords cfg.excludeKw gf.excludeKeywords
  if !(isRecent e.publishedParsed lookback now) then none
  else
    let title := stripStr (pyStrO e.title)
    let summary := truncateSummary 240 (pyStrO e.summary)
    let hay := title ++ '\n' :: summary
    if !includeKw.isEmpty && !(anyKeywordMatch hay includeKw) then none
    else if !(noneKeywordMatch hay excludeKw) then none
    else
      let link := e.link.getD []
      let itemId := orElseStr e.id (if e.comments = [] then link else e.comments)
      some { id := some itemId,
             title := some ("[HN] ".toList ++ title),
             summary := some summary,
             published := e.publishedParsed,
             link := some (if e.comments = [] then link else e.comments),
             pdf := some [] }

/-- Per-entry processing of sources/acl.py `fetch`: the recency and keyword
filters read only the global filter lists — acl.py never consults the source
config for keywords. -/
def aclProcessEntry (gf : GlobalFilters) (now : Int) (e : FeedEntry) : Option Item :=
  let title := stripStr (e.title.getD [])
  let summary := stripStr (pyStrO e.summary)
  let hay := title ++ '\n' :: summary
  if !(isRecent e.publishedParsed gf.lookbackDays now) then none
  else if !gf.includeKeywords.isEmpty && !(anyKeywordMatch hay gf.includeKeywords) then none
  else if !(noneKeywordMatch hay gf.excludeKeywords) then none
  else
    let link := e.link.getD []
    some { id := some (e.id.getD link),
           title := some title,
           summary := some summary,
           published := e.publishedParsed,
           link := some link,
           pdf := some [] }

/-- sources/acl.py `fetch` over the parsed entries of one feed.  The source
config is accepted (acl.py takes it) but only its `feeds` key is ever read,
which selects `entries`; the keyword fields are ignored. -/
def aclFetch (_cfg : SrcConfig) (gf : GlobalFilters) (now : Int)
    (entries : List FeedEntry) : List Item :=
  entries.filterMap (aclProcessEntry gf now)

/-- Association-list lookup modelling Python `dict.get(key)`. -/
def lookupStr {α : Type} (k : Str) : List (Str × α) → Option α
  | [] => none
  | (k', v) :: t => if k = k' then some v else lookupStr k t

/-- An OpenReview API note: `content` maps field names to value dicts
(the v2 `{"value": ...}` shape), timestamps are milliseconds. -/
structure ORNote where
  content : List (Str × List (Str × Str))
  tmdate : Option Int
  mdate : Option Int
  cdate : Option Int
  id : Str
  forum : Option Str
deriving DecidableEq

/-- Python `a or b` over optional integers (`None` and `0` are falsy). -/
def pyOrInt (a : Option Int) (b : Option Int) : Option Int :=
  match a with
  | none => b
  | some n => if n = 0 then b else some n

/-- `getattr(n, "tmdate", None) or getattr(n, "mdate", None) or
getattr(n, "cdate", None)` followed by
`datetime.fromtimestamp(ts/1000) if ts else None`. -/
def orPublished (n : ORNote) : Option Int :=
  match pyOrInt n.tmdate (pyOrInt n.mdate n.cdate) with
  | none => none
  | some t => if t = 0 then none else some (t / 1000)

/-- `_as_text` applied inside `get_first_content_text`: the first of the
`value`/`text`/`content` keys that is present and truthy, stripped. -/
def asDictText (d : List (Str × Str)) : Str :=
  let step := fun (k : Str) (rest : Str) =>
    match lookupStr k d with
    | some v => if v = [] then rest else stripStr v
    | none => rest
  step ("value".toList) (step ("text".toList) (step ("content".toList) []))

/-- `get_first_content_text(content, *keys)` of openreview.py: the first
present key rendered as text (an empty dict renders as `""`). -/
def getFirstContentText (content : List (Str × List (Str × Str))) :
    List Str → Str
  | [] => []
  | k :: ks =>
    match lookupStr k content with
    | some d => asDictText d
    | none => getFirstContentText content ks

/-- Per-note processing of sources/openreview.py `fetch`.  The title is read
with `n.content.get("title").get("value")`: when `content` lacks the
`"title"` key the first `get` yields `None` and the second raises
`AttributeError`, which nothing in the per-note loop catches — modelled as
`Except.error`.  Everything else in the loop is defensive. -/
def orProcessNote (cfg : SrcConfig) (gf : GlobalFilters) (now : Int) (n : ORNote) :
    Except Str (Option Item) :=
  let published := orPublished n
  if !(isRecent published 1 now) then Except.ok none
  else
    match lookupStr ("title".toList) n.content with
    | none => Except.error ("AttributeError: NoneType object has no attribute get".toList)
    | some d =>
      let title := (lookupStr ("value".toList) d).getD []
      let abstract := getFirstContentText n.content
        [("abstract".toList), ("Abstract".toList), ("tl;dr".toList), ("TL;DR".toList),
         ("summary".toList), ("Summary".toList)]
      let includeKw := effectiveKeywords cfg.includeKw gf.includeKeywords
      let excludeKw := effectiveKeywords cfg.excludeKw gf.excludeKeywords
      let hay := title ++ '\n' :: abstract
      if !includeKw.isEmpty && !(anyKeywordMatch hay includeKw) then Except.ok none
      else if !(noneKeywordMatch hay excludeKw) then Except.ok none
      else
        let forum := orElseStr n.forum n.id
        Except.ok (some { id := some n.id,
                          title := some title,
                          summary := some abstract,
                          published := published,
                          link := some ("https://openreview.net/forum?id=".toList ++ forum),
                          pdf := some [] })

/-- The per-venue note loop of openreview.py, propagating the first per-note
error (there is no try/except around this loop). -/
def orProcessNotes (cfg : SrcConfig) (gf : GlobalFilters) (now : Int) :
    List ORNote → Except Str (List Item)
  | [] => Except.ok []
  | n :: t =>
    match orProcessNote cfg gf now n with
    | Except.error e => Except.error e
    | Except.ok none => orProcessNotes cfg gf now t
    | Except.ok (some it) =>
      match orProcessNotes cfg gf now t with
      | Except.error e => Except.error e
      | Except.ok rest => Except.ok (it :: rest)

/-- sources/openreview.py `fetch` over the per-venue provider call results: a
failing `get_all_notes` call is caught (`except Exception: continue`), but a
per-note error inside the loop escapes the whole fetch. -/
def orFetch (cfg : SrcConfig) (gf : GlobalFilters) (now : Int) :
    List (Except Unit (List ORNote)) → Except Str (List Item)
  | [] => Except.ok []
  | r :: t =>
    match r with
    | Except.error _ => orFetch cfg gf now t
    | Except.ok notes =>
      match orProcessNotes cfg gf now notes with
      | Except.error e => Except.error e
      | Except.ok items =>
        match orFetch cfg gf now t with
        | Except.error e => Except.error e
        | Except.ok rest => Except.ok (items ++ rest)

/-- A raw item handed to digest_helpers.fetch_items by a source module. -/
structure RawHelperItem where
  title : Option Str
  url : Option Str
  summary : Option Str
  abstract : Option Str
  published : Option Int
deriving DecidableEq

/-- A normalized item of digest_helpers.py (its `published` is mandatory:
normalization already removed undated items). -/
structure HelperItem where
  title : Str
  url : Option Str
  source : Str
  summary : Str
  published : Int
deriving DecidableEq

/-- The record built by the normalization loop of `fetch_items` for a dated
item. -/
def normalizeOne (logical : Str) (it : RawHelperItem) : HelperItem :=
  { title := it.title.getD ("(no title)".toList),
    url := it.url,
    source := logical,
    summary := orElseStr it.summary (pyStrO it.abstract),
    published := it.published.getD 0 }

/-- The `normalize & limit` loop of digest_helpers.fetch_items: take the
per-source limit, then `if not it.get("published"): continue` — every item
without a published timestamp is dropped before any recency filtering
(a Python datetime is always truthy, `None` is falsy). -/
def normalizeHelpers (logical : Str) (limitPerSource : Nat)
    (items : List RawHelperItem) : List HelperItem :=
  (items.take limitPerSource).filterMap (fun it =>
    match it.published with
    | none => none
    | some _ => some (normalizeOne logical it))

/-- digest_helpers.filter_items_by_hours: keep items with
`it["published"] >= now - hours in seconds`. -/
def filterByHours (now : Int) (hours : Int) (bm : List (Str × List HelperItem)) :
    List (Str × List HelperItem) :=
  bm.map (fun p => (p.1, p.2.filter (fun it => decide (now - hours * 3600 ≤ it.published))))

/-- True when both `id` and `link` are absent or empty (the key-less items of
`dedupe_buckets`). -/
def noIdLink (it : Item) : Bool :=
  (match it.id with
   | none => true
   | some s => s.isEmpty)
  && (match it.link with
      | none => true
      | some s => s.isEmpty)

/-! ### Concrete inputs used by witnesses and counterexamples -/

def exI3 : Item :=
  { id := some ("a".toList), title := none, summary := none,
    published := some 3, link := none, pdf := none }

def exIN : Item :=
  { id := some ("b".toList), title := none, summary := none,
    published := none, link := none, pdf := none }

def exI1 : Item :=
  { id := some ("c".toList), title := none, summary := none,
    published := some 1, link := none, pdf := none }

/-- The spec's sort-stability example: published values [3, None, 1]. -/
def exSortInput : List Item := [exI3, exIN, exI1]

/-- Three items in one bucket, against a cap of 10. -/
def exItems3 : List Item := [exI3, exIN, exI1]

/-- A source config carrying the explicit empty include-keyword override. -/
def cfgOv : SrcConfig := { includeKw := some [], excludeKw := none, lookbackDays := none }

/-- Global filters with a non-empty include-keyword list. -/
def gfSec : GlobalFilters :=
  { lookbackDays := 7, includeKeywords := [("security".toList)],
    excludeKeywords := [], priorityAuthors := [] }

/-- A parsed entry whose text matches no include keyword. -/
def cookingEntry : FeedEntry :=
  { title := some ("Cooking Tips".toList), summary := none, publishedParsed := none,
    link := some ("http://x".toList), id := some ("c1".toList), comments := [] }

/-- A source config with every key absent. -/
def cfgEmpty : SrcConfig := { includeKw := none, excludeKw := none, lookbackDays := none }

/-- Global filters with empty keyword lists. -/
def gfEmpty : GlobalFilters :=
  { lookbackDays := 7, includeKeywords := [], excludeKeywords := [],
    priorityAuthors := [] }

/-- An OpenReview note whose `content` has no `"title"` key. -/
def badNote : ORNote :=
  { content := [(("abstract".toList), [(("value".toList), ("x".toList))])],
    tmdate := none, mdate := none, cdate := none,
    id := ("n1".toList), forum := none }

/-- A raw helper item without a published timestamp. -/
def uRaw : RawHelperItem :=
  { title := some ("Undated".toList), url := some ("http://u".toList),
    summary := some ("s".toList), abstract := none, published := none }

/-- An item whose summary holds HTML markup. -/
def exEvil : Item :=
  { id := some ("e".toList), title := some ("<b>Hi</b>".toList),
    summary := some ("<script>alert(1)</script>".toList),
    published := none, link := some ("http://x".toList), pdf := none }

/-! ### Lemmas about the stable newest-first sort -/

theorem insertItemDesc_perm (a : Item) (t : List Item) :
    (insertItemDesc a t).Perm (a :: t) := by
  induction t with
  | nil => exact List.Perm.refl _
  | cons b t ih =>
    unfold insertItemDesc
    by_cases h : pubKey a < pubKey b
    · simp only [if_pos h]
      exact List.Perm.trans (List.Perm.cons b ih) (List.Perm.swap a b t)
    · simp only [if_neg h]
      exact List.Perm.refl _

theorem sortItemsDesc_perm (l : List Item) : (sortItemsDesc l).Perm l := by
  induction l with
  | nil => exact List.Perm.refl _
  | cons a t ih =>
    exact List.Perm.trans (insertItemDesc_perm a (sortItemsDesc t)) (List.Perm.cons a ih)

theorem mem_insertItemDesc {x a : Item} {t : List Item} :
    x ∈ insertItemDesc a t ↔ x = a ∨ x ∈ t := by
  rw [(insertItemDesc_perm a t).mem_iff, List.mem_cons]

theorem pairwise_insertItemDesc {a : Item} {t : List Item}
    (h : t.Pairwise (fun x y => pubKey y ≤ pubKey x)) :
    (insertItemDesc a t).Pairwise (fun x y => pubKey y ≤ pubKey x) := by
  induction t with
  | nil => simp [insertItemDesc]
  | cons b t ih =>
    rcases List.pairwise_cons.mp h with ⟨hb, ht⟩
    unfold insertItemDesc
    by_cases hab : pubKey a < pubKey b
    · simp only [if_pos hab]
      refine List.pairwise_cons.mpr ⟨?_, ih ht⟩
      intro x hx
      rcases mem_insertItemDesc.mp hx with rfl | hx
      · exact le_of_lt hab
      · exact hb x hx
    · simp only [if_neg hab]
      have hba : pubKey b ≤ pubKey a := le_of_not_lt hab
      refine List.pairwise_cons.mpr ⟨?_, List.pairwise_cons.mpr ⟨hb, ht⟩⟩
      intro x hx
      rcases List.mem_cons.mp hx with rfl | hx
      · exact hba
      · exact le_trans (hb x hx) hba

theorem sortItemsDesc_pairwise (l : List Item) :
    (sortItemsDesc l).Pairwise (fun x y => pubKey y ≤ pubKey x) := by
  induction l with
  | nil => exact List.Pairwise.nil
  | cons a t ih => exact pairwise_insertItemDesc ih

theorem filter_key_insertItemDesc (a : Item) (t : List Item) (k : Int) :
    (insertItemDesc a t).filter (fun it => decide (pubKey it = k))
      = ((a :: t).filter (fun it => decide (pubKey it = k))) := by
  induction t with
  | nil => rfl
  | cons b t ih =>
    unfold insertItemDesc
    by_cases hab : pubKey a < pubKey b
    · simp only [if_pos hab]
      by_cases hak : pubKey a = k
      · have hbk : ¬ pubKey b = k := by
          intro hbk
          rw [hak] at hab
          rw [hbk] at hab
          exact lt_irrefl k hab
        simpa [List.filter_cons, hak, hbk] using ih
      · simp only [List.filter_cons, decide_eq_true_eq, hak, if_false] at ih ⊢
        by_cases hbk : pubKey b = k
        · simpa [List.filter_cons, hbk, hak] using congrArg (b :: ·) ih
        · simpa [List.filter_cons, hbk, hak] using ih
    · simp only [if_neg hab]

theorem sortItemsDesc_filter_key (l : List Item) (k : Int) :
    (sortItemsDesc l).filter (fun it => decide (pubKey it = k))
      = l.filter (fun it => decide (pubKey it = k)) := by
  induction l with
  | nil => rfl
  | cons a t ih =>
    show (insertItemDesc a (sortItemsDesc t)).filter _ = _
    rw [filter_key_insertItemDesc]
    by_cases hak : pubKey a = k
    · simp [List.filter_cons, hak, ih]
    · simp [List.filter_cons, hak, ih]

theorem sorted_split_some_none (s : List Item)
    (hs : s.Pairwise (fun x y => pubKey y ≤ pubKey x))
    (hpos : ∀ it ∈ s, 0 < it.published.getD 1) :
    s = s.filter (fun it => it.published.isSome)
      ++ s.filter (fun it => it.published.isNone) := by
  induction s with
  | nil => rfl
  | cons x t ih =>
    rcases List.pairwise_cons.mp hs with ⟨hx, ht⟩
    have hpt : ∀ it ∈ t, 0 < it.published.getD 1 :=
      fun it h => hpos it (List.mem_cons_of_mem _ h)
    cases hx0 : x.published with
    | some n =>
      have h1 : x.published.isSome = true := by rw [hx0]; rfl
      have h2 : x.published.isNone = false := by rw [hx0]; rfl
      simp only [List.filter_cons, h1, h2, if_true, if_false, Bool.false_eq_true,
        List.cons_append]
      exact congrArg (x :: ·) (ih ht hpt)
    | none =>
      have hkx : pubKey x = 0 := by simp [pubKey, hx0]
      have hall : ∀ b ∈ t, b.published = none := by
        intro b hb
        cases hbp : b.published with
        | none => rfl
        | some m =>
          exfalso
          have h1 : 0 < m := by
            have := hpt b hb
            rw [hbp] at this
            simpa using this
          have h2 : pubKey b ≤ pubKey x := hx b hb
          have h3 : pubKey b = m := by simp [pubKey, hbp]
          rw [h3, hkx] at h2
          exact absurd (lt_of_lt_of_le h1 h2) (lt_irrefl 0)
      have hfS : t.filter (fun it => it.published.isSome) = [] := by
        refine List.filter_eq_nil_iff.mpr ?_
        intro b hb
        rw [hall b hb]
        simp
      have hfN : t.filter (fun it => it.published.isNone) = t := by
        refine List.filter_eq_self.mpr ?_
        intro b hb
        rw [hall b hb]
        rfl
      have h1 : x.published.isSome = false := by rw [hx0]; rfl
      have h2 : x.published.isNone = true := by rw [hx0]; rfl
      simp [List.filter_cons, h1, h2, hfS, hfN]

/-! ### Lemmas about dedupe_buckets -/

theorem dedupeGo_sublist (name : Str) (seen : List (Str × Str)) (l : List Item) :
    List.Sublist (dedupeGo name seen l) l := by
  induction l generalizing seen with
  | nil => exact List.Sublist.refl _
  | cons e t ih =>
    unfold dedupeGo
    by_cases h : (name, itemKey e) ∈ seen
    · simp only [if_pos h]
      exact List.Sublist.cons e (ih seen)
    · simp only [if_neg h]
      exact List.Sublist.cons₂ e (ih _)

theorem dedupeGo_filter_key (name : Str) (seen : List (Str × Str)) (l : List Item)
    (k : Str) :
    (dedupeGo name seen l).filter (fun it => decide (itemKey it = k))
      = if (name, k) ∈ seen then []
        else (l.filter (fun it => decide (itemKey it = k))).take 1 := by
  induction l generalizing seen with
  | nil => simp [dedupeGo]
  | cons e t ih =>
    unfold dedupeGo
    by_cases hseen : (name, itemKey e) ∈ seen
    · rw [if_pos hseen, ih seen]
      by_cases hek : itemKey e = k
      · have hk : (name, k) ∈ seen := hek ▸ hseen
        rw [if_pos hk, if_pos hk]
      · by_cases hkseen : (name, k) ∈ seen
        · rw [if_pos hkseen, if_pos hkseen]
        · rw [if_neg hkseen, if_neg hkseen, List.filter_cons]
          simp only [decide_eq_true_eq]
          rw [if_neg hek]
    · rw [if_neg hseen, List.filter_cons]
      simp only [decide_eq_true_eq]
      by_cases hek : itemKey e = k
      · have hk : (name, k) ∉ seen := hek ▸ hseen
        have hkmem : (name, k) ∈ ((name, itemKey e) :: seen) := by
          rw [hek]
          exact List.mem_cons_self _ _
        rw [if_pos hek, if_neg hk, List.filter_cons]
        simp only [decide_eq_true_eq]
        rw [if_pos hek, ih ((name, itemKey e) :: seen), if_pos hkmem]
        simp
      · rw [if_neg hek, ih ((name, itemKey e) :: seen)]
        have hmemiff : ((name, k) ∈ (name, itemKey e) :: seen) ↔ ((name, k) ∈ seen) := by
          simp only [List.mem_cons, Prod.mk.injEq, true_and]
          exact or_iff_right (fun h => hek h.symm)
        rw [if_congr hmemiff rfl rfl]
        by_cases hkseen : (name, k) ∈ seen
        · rw [if_pos hkseen, if_pos hkseen]
        · rw [if_neg hkseen, if_neg hkseen, List.filter_cons]
          simp only [decide_eq_true_eq]
          rw [if_neg hek]

theorem dedupeGo_not_mem_seen (name : Str) (seen : List (Str × Str)) (l : List Item) :
    ∀ it ∈ dedupeGo name seen l, (name, itemKey it) ∉ seen := by
  induction l generalizing seen with
  | nil => intro it h; cases h
  | cons e t ih =>
    intro it hit
    unfold dedupeGo at hit
    by_cases h : (name, itemKey e) ∈ seen
    · rw [if_pos h] at hit
      exact ih seen it hit
    · rw [if_neg h] at hit
      rcases List.mem_cons.mp hit with rfl | hit
      · exact h
      · have := ih ((name, itemKey e) :: seen) it hit
        intro hmem
        exact this (List.mem_cons_of_mem _ hmem)

theorem dedupeGo_keys_nodup (name : Str) (seen : List (Str × Str)) (l : List Item) :
    (dedupeGo name seen l).Pairwise (fun a b => itemKey a ≠ itemKey b) := by
  induction l generalizing seen with
  | nil => exact List.Pairwise.nil
  | cons e t ih =>
    unfold dedupeGo
    by_cases h : (name, itemKey e) ∈ seen
    · rw [if_pos h]
      exact ih seen
    · rw [if_neg h]
      refine List.pairwise_cons.mpr ⟨?_, ih _⟩
      intro b hb hkey
      have := dedupeGo_not_mem_seen name _ t b hb
      apply this
      rw [← hkey]
      exact List.mem_cons_self _ _

theorem dedupeGo_eq_self (name : Str) (seen : List (Str × Str)) (l : List Item)
    (hnd : l.Pairwise (fun a b => itemKey a ≠ itemKey b))
    (hfresh : ∀ it ∈ l, (name, itemKey it) ∉ seen) :
    dedupeGo name seen l = l := by
  induction l generalizing seen with
  | nil => rfl
  | cons e t ih =>
    rcases List.pairwise_cons.mp hnd with ⟨he, ht⟩
    unfold dedupeGo
    rw [if_neg (hfresh e (List.mem_cons_self _ _))]
    refine congrArg (e :: ·) (ih _ ht ?_)
    intro it hit hmem
    rcases List.mem_cons.mp hmem with heq | hmem'
    · exact he it hit (congrArg Prod.snd heq).symm
    · exact hfresh it (List.mem_cons_of_mem _ hit) hmem'

theorem insertItemDesc_of_le {a : Item} {t : List Item}
    (h : ∀ b ∈ t, pubKey b ≤ pubKey a) : insertItemDesc a t = a :: t := by
  cases t with
  | nil => rfl
  | cons b t' =>
    unfold insertItemDesc
    rw [if_neg (not_lt_of_le (h b (List.mem_cons_self _ _)))]

theorem sortItemsDesc_eq_self {l : List Item}
    (h : l.Pairwise (fun x y => pubKey y ≤ pubKey x)) : sortItemsDesc l = l := by
  induction l with
  | nil => rfl
  | cons a t ih =>
    rcases List.pairwise_cons.mp h with ⟨ha, ht⟩
    show insertItemDesc a (sortItemsDesc t) = a :: t
    rw [ih ht]
    exact insertItemDesc_of_le ha

theorem aggStep_idem (name : Str) (l : List Item) :
    dedupeItems name (sortItemsDesc (dedupeItems name (sortItemsDesc l)))
      = dedupeItems name (sortItemsDesc l) := by
  have hs : (sortItemsDesc l).Pairwise (fun x y => pubKey y ≤ pubKey x) :=
    sortItemsDesc_pairwise l
  have hd : List.Sublist (dedupeItems name (sortItemsDesc l)) (sortItemsDesc l) :=
    dedupeGo_sublist name [] (sortItemsDesc l)
  have hdp : (dedupeItems name (sortItemsDesc l)).Pairwise
      (fun x y => pubKey y ≤ pubKey x) := List.Pairwise.sublist hd hs
  rw [sortItemsDesc_eq_self hdp]
  exact dedupeGo_eq_self name [] _ (dedupeGo_keys_nodup name [] _)
    (fun it _ h => by cases h)

/-! ### Lemmas about summary truncation -/

theorem dropWhile_space_split {r : Str} (h : ' ' ∈ r) :
    ∃ r₁ r₂, r = r₁ ++ ' ' :: r₂ ∧ ' ' ∉ r₁ ∧
      r.dropWhile (fun c => c != ' ') = ' ' :: r₂ := by
  induction r with
  | nil => cases h
  | cons c t ih =>
    by_cases hc : c = ' '
    · subst hc
      exact ⟨[], t, rfl, by simp, by simp [List.dropWhile]⟩
    · have ht : ' ' ∈ t := by
        rcases List.mem_cons.mp h with h1 | h1
        · exact absurd h1.symm hc
        · exact h1
      rcases ih ht with ⟨r₁, r₂, he, hn, hd⟩
      refine ⟨c :: r₁, r₂, by rw [List.cons_append, ← he], ?_, ?_⟩
      · intro hm
        rcases List.mem_cons.mp hm with h1 | h1
        · exact hc h1.symm
        · exact hn h1
      · have hcb : (c != ' ') = true := by
          simp [bne_iff_ne]
          exact hc
        simp only [List.dropWhile_cons, hcb, if_true]
        exact hd

theorem cutAtLastSpace_of_mem {t : Str} (h : ' ' ∈ t) :
    ∃ b, t = cutAtLastSpace t ++ ' ' :: b ∧ ' ' ∉ b := by
  have hr : ' ' ∈ t.reverse := List.mem_reverse.mpr h
  rcases dropWhile_space_split hr with ⟨r₁, r₂, he, hn, hd⟩
  have hcut : cutAtLastSpace t = r₂.reverse := by
    unfold cutAtLastSpace
    rw [if_pos h, hd]
    rfl
  refine ⟨r₁.reverse, ?_, ?_⟩
  · rw [hcut]
    have h1 : t = t.reverse.reverse := (List.reverse_reverse t).symm
    rw [h1, he]
    rw [List.reverse_append, List.reverse_cons, List.append_assoc]
    rfl
  · intro hm
    exact hn (List.mem_reverse.mp hm)

theorem cutAtLastSpace_of_not_mem {t : Str} (h : ' ' ∉ t) :
    cutAtLastSpace t = t := by
  unfold cutAtLastSpace
  rw [if_neg h]

/-! ### Claim theorems -/

/-- C1: every bucket sorted by `fetch_all` is a stable newest-first sort of
the adapter output: the result is a permutation, it is ordered by descending
`pubKey` (absent timestamps keyed as the oldest possible value `0`), items of
equal key keep their provider-returned relative order, and — whenever every
present timestamp is strictly after the minimal datetime, which holds of all
real parsed dates — the result is the dated items (newest first) followed by
the undated items in provider order. -/
theorem fetchAll_bucket_sorted (l : List Item)
    (hpos : ∀ it ∈ l, 0 < it.published.getD 1) :
    (sortItemsDesc l).Perm l ∧
    (sortItemsDesc l).Pairwise (fun x y => pubKey y ≤ pubKey x) ∧
    (∀ k : Int, (sortItemsDesc l).filter (fun it => decide (pubKey it = k))
        = l.filter (fun it => decide (pubKey it = k))) ∧
    sortItemsDesc l
      = (sortItemsDesc l).filter (fun it => it.published.isSome)
        ++ l.filter (fun it => it.published.isNone) := by
  have hperm := sortItemsDesc_perm l
  have hpos' : ∀ it ∈ sortItemsDesc l, 0 < it.published.getD 1 :=
    fun it h => hpos it (hperm.mem_iff.mp h)
  refine ⟨hperm, sortItemsDesc_pairwise l, fun k => sortItemsDesc_filter_key l k, ?_⟩
  have hnone : (sortItemsDesc l).filter (fun it => it.published.isNone)
      = l.filter (fun it => it.published.isNone) := by
    have hpw : ∀ (m : List Item), (∀ it ∈ m, 0 < it.published.getD 1) →
        ∀ it ∈ m, (fun it => it.published.isNone) it
          = (fun it => decide (pubKey it = 0)) it := by
      intro m hm it hit
      cases hp : it.published with
      | none => simp [pubKey, hp]
      | some n =>
        have h1 : 0 < n := by
          have := hm it hit
          rw [hp] at this
          simpa using this
        simp only [hp, Option.isNone_some]
        have : pubKey it = n := by simp [pubKey, hp]
        rw [this]
        simp [ne_of_gt h1]
    calc (sortItemsDesc l).filter (fun it => it.published.isNone)
        = (sortItemsDesc l).filter (fun it => decide (pubKey it = 0)) :=
          List.filter_congr (hpw _ hpos')
      _ = l.filter (fun it => decide (pubKey it = 0)) := sortItemsDesc_filter_key l 0
      _ = l.filter (fun it => it.published.isNone) :=
          (List.filter_congr (hpw _ hpos)).symm
  calc sortItemsDesc l
      = (sortItemsDesc l).filter (fun it => it.published.isSome)
        ++ (sortItemsDesc l).filter (fun it => it.published.isNone) :=
        sorted_split_some_none _ (sortItemsDesc_pairwise l) hpos'
    _ = (sortItemsDesc l).filter (fun it => it.published.isSome)
        ++ l.filter (fun it => it.published.isNone) := by rw [hnone]

/-- Witness for C1 at the spec's example [3, None, 1]: the hypothesis holds
and the sorted bucket is the claimed [3, 1, None]. -/
theorem fetchAll_bucket_sorted_witness :
    (∀ it ∈ exSortInput, 0 < it.published.getD 1) ∧
    sortItemsDesc exSortInput = [exI3, exI1, exIN] ∧
    (sortItemsDesc exSortInput).Perm exSortInput :=
  ⟨by decide, by decide, (fetchAll_bucket_sorted exSortInput (by decide)).1⟩

/-- C7: `dedupe_buckets` keeps, for every dedup key, exactly the first item
of the bucket carrying that key, and the survivors appear in first-seen
order (the result is a sublist of the input). -/
theorem dedupe_first_seen (name : Str) (l : List Item) :
    List.Sublist (dedupeItems name l) l ∧
    ∀ k : Str, (dedupeItems name l).filter (fun it => decide (itemKey it = k))
      = (l.filter (fun it => decide (itemKey it = k))).take 1 := by
  refine ⟨dedupeGo_sublist name [] l, fun k => ?_⟩
  rw [dedupeItems, dedupeGo_filter_key]
  rw [if_neg (List.not_mem_nil _)]

/-- C8: the aggregation steps (newest-first sort then dedupe) are idempotent
on every bucket map: a second application returns the identical bucket map,
content and order. -/
theorem aggregate_idempotent (bm : List (Str × List Item)) :
    aggregate (aggregate bm) = aggregate bm := by
  induction bm with
  | nil => rfl
  | cons b t ih =>
    simp only [aggregate, List.map_cons, List.map_map] at ih ⊢
    rw [aggStep_idem]
    rw [ih]

/-- C9: an item with absent-or-empty id and link gets the dedup key
`(source name, "")`, so at most one such key-less item survives
`dedupe_buckets` in any bucket. -/
theorem dedupe_keyless (name : Str) (l : List Item) :
    (∀ it : Item, noIdLink it = true → itemKey it = []) ∧
    ((dedupeItems name l).filter noIdLink).length ≤ 1 := by
  have hkey : ∀ it : Item, noIdLink it = (fun it => decide (itemKey it = [])) it := by
    rintro ⟨oid, ot, os, op, ol, opdf⟩
    cases oid with
    | none =>
      cases ol with
      | none => rfl
      | some s =>
        cases s with
        | nil => rfl
        | cons c cs => simp [noIdLink, itemKey, orElseStr]
    | some s =>
      cases s with
      | nil =>
        cases ol with
        | none => rfl
        | some s' =>
          cases s' with
          | nil => rfl
          | cons c cs => simp [noIdLink, itemKey, orElseStr]
      | cons c cs => simp [noIdLink, itemKey, orElseStr]
  constructor
  · intro it h
    have := hkey it
    rw [h] at this
    exact of_decide_eq_true this.symm
  · rw [List.filter_congr (fun it _ => hkey it), dedupeItems, dedupeGo_filter_key,
      if_neg (List.not_mem_nil _)]
    calc ((l.filter (fun it => decide (itemKey it = []))).take 1).length
        ≤ 1 := by
          rw [List.length_take]
          exact min_le_left _ _

/-- Witness for C9: a concrete key-less item and bucket. -/
theorem dedupe_keyless_witness :
    noIdLink { id := none, title := none, summary := none, published := none,
               link := some [], pdf := none } = true ∧
    itemKey { id := none, title := none, summary := none, published := none,
              link := some [], pdf := none } = [] ∧
    ((dedupeItems ("S".toList) exItems3).filter noIdLink).length ≤ 1 :=
  ⟨by decide,
   (dedupe_keyless ("S".toList) exItems3).1 _ (by decide),
   (dedupe_keyless ("S".toList) exItems3).2⟩

/-- C3 counterexample: on a 281-character summary with no space, the code cuts
at exactly the budget — splitting the word — so there is no decomposition at
a space within the budget, refuting the claim that the cut point is always at
or before the last space within the budget. -/
theorem truncate_no_space_cex :
    truncateSummary 280 (List.replicate 281 'a')
      = List.replicate 280 'a' ++ ['…'] ∧
    ¬ specCutOK 280 (List.replicate 281 'a') := by
  constructor
  · decide
  · rintro ⟨cut, a, b, h1, h2, h3, h4⟩
    have hmem : ' ' ∈ (List.replicate 281 'a').take 280 := by
      rw [h2]
      exact List.mem_append_right _ (List.mem_cons_self _ _)
    rw [List.take_replicate] at hmem
    have := List.eq_of_mem_replicate hmem
    exact absurd this (by decide)

/-- C3 (amended): a summary at or under the budget is emitted unchanged; an
over-budget summary becomes a cut plus an ellipsis, with the cut a prefix of
the summary of length at most the budget; when the first `budget` characters
contain a space the cut ends exactly at the last such space (no word is
split), and when they contain none the cut is the full first `budget`
characters, which can split a word. -/
theorem truncate_spec (budget : Nat) (s : Str) :
    (s.length ≤ budget → truncateSummary budget s = s) ∧
    (budget < s.length →
      ∃ cut, truncateSummary budget s = cut ++ ['…'] ∧ cut.length ≤ budget ∧
        (∃ rest, s = cut ++ rest) ∧
        ((' ' ∈ s.take budget) → ∃ b, s.take budget = cut ++ ' ' :: b ∧ ' ' ∉ b) ∧
        ((' ' ∉ s.take budget) → cut = s.take budget)) := by
  constructor
  · intro h
    unfold truncateSummary
    rw [if_neg (not_lt.mpr h)]
  · intro h
    have htake : (s.take budget).length = budget := by
      rw [List.length_take]
      exact min_eq_left (le_of_lt h)
    refine ⟨cutAtLastSpace (s.take budget), ?_, ?_, ?_, ?_, ?_⟩
    · unfold truncateSummary
      rw [if_pos h]
    · by_cases hsp : ' ' ∈ s.take budget
      · rcases cutAtLastSpace_of_mem hsp with ⟨b, hb, _⟩
        have : (cutAtLastSpace (s.take budget)).length ≤ (s.take budget).length := by
          conv_rhs => rw [hb]
          rw [List.length_append]
          exact Nat.le_add_right _ _
        rw [htake] at this
        exact this
      · rw [cutAtLastSpace_of_not_mem hsp, htake]
    · by_cases hsp : ' ' ∈ s.take budget
      · rcases cutAtLastSpace_of_mem hsp with ⟨b, hb, _⟩
        refine ⟨' ' :: b ++ s.drop budget, ?_⟩
        calc s = s.take budget ++ s.drop budget := (List.take_append_drop _ _).symm
          _ = (cutAtLastSpace (s.take budget) ++ ' ' :: b) ++ s.drop budget := by
              conv_lhs => rw [hb]
          _ = cutAtLastSpace (s.take budget) ++ (' ' :: b ++ s.drop budget) :=
              List.append_assoc _ _ _
      · refine ⟨s.drop budget, ?_⟩
        rw [cutAtLastSpace_of_not_mem hsp]
        exact (List.take_append_drop _ _).symm
    · intro hsp
      exact cutAtLastSpace_of_mem hsp
    · intro hsp
      exact cutAtLastSpace_of_not_mem hsp

/-- Witness for C3's amended statement at budget 3: an under-budget summary
passes through unchanged, and an over-budget one is cut at the last space. -/
theorem truncate_spec_witness :
    (("ab".toList).length ≤ 3 ∧ truncateSummary 3 ("ab".toList) = "ab".toList) ∧
    (3 < ("ab cd".toList).length ∧
      ∃ cut, truncateSummary 3 ("ab cd".toList) = cut ++ ['…'] ∧ cut.length ≤ 3 ∧
        (∃ rest, "ab cd".toList = cut ++ rest) ∧
        ((' ' ∈ ("ab cd".toList).take 3) →
          ∃ b, ("ab cd".toList).take 3 = cut ++ ' ' :: b ∧ ' ' ∉ b) ∧
        ((' ' ∉ ("ab cd".toList).take 3) → cut = ("ab cd".toList).take 3)) :=
  ⟨⟨by decide, (truncate_spec 3 ("ab".toList)).1 (by decide)⟩,
   ⟨by decide, (truncate_spec 3 ("ab cd".toList)).2 (by decide)⟩⟩

/-- C4 counterexample: with 3 items and cap 10, the plaintext heading reads
"S (showing 10)" — it shows the cap, and does not contain the count actually
shown (3), refuting the claim for `render_plaintext`. -/
theorem plain_heading_cex :
    (renderPlainBucket (some 10) ("S".toList) exItems3).head?
      = some ("S (showing 10)".toList) ∧
    shownCount (some 10) exItems3 = 3 ∧
    containsSub (natToStr (shownCount (some 10) exItems3))
      ("S (showing 10)".toList) = false := by
  refine ⟨by decide, by decide, by decide⟩

/-- C4 (amended): for every non-empty bucket, the number of item entries
emitted by both renderers is `shownCount` (`min(len, cap)` for a positive
cap, the full count otherwise); the `render_html` heading carries exactly
that number, while the `render_plaintext` heading carries the cap
description (`"all"` or the raw cap value) instead of the count shown;
cap `0` or absent emits every item. -/
theorem render_heading_counts (cap : Option Int) (name : Str) (items : List Item)
    (h : items ≠ []) :
    (limitItems cap items).length = shownCount cap items ∧
    renderHtmlBucket cap name items
      = ("<h3>".toList ++ name ++ " (".toList ++ natToStr (shownCount cap items)
          ++ ")</h3>".toList)
        :: "<ul>".toList :: ((limitItems cap items).map liFor ++ ["</ul>".toList]) ∧
    renderPlainBucket cap name items
      = (name ++ " (showing ".toList ++ capDesc cap ++ ")".toList)
        :: ((limitItems cap items).flatMap plainItemLines ++ [[]]) ∧
    ((cap = none ∨ cap = some 0) → limitItems cap items = items) ∧
    (∀ n : Int, cap = some n → 0 < n →
      shownCount cap items = min items.length n.toNat) := by
  refine ⟨?_, ?_, ?_, ?_, ?_⟩
  · cases cap with
    | none => rfl
    | some n =>
      by_cases hn : n ≤ 0
      · simp [limitItems, shownCount, hn]
      · simp only [limitItems, shownCount, if_neg hn, List.length_take]
        exact Nat.min_comm _ _
  · unfold renderHtmlBucket
    rw [if_neg h]
  · unfold renderPlainBucket
    rw [if_neg h]
  · rintro (rfl | rfl)
    · rfl
    · rfl
  · rintro n rfl hn
    show (if n ≤ 0 then items.length else min items.length n.toNat) = _
    rw [if_neg (not_le.mpr hn)]

/-- Witness for C4's amended statement at 3 items and cap 10. -/
theorem render_heading_counts_witness :
    exItems3 ≠ [] ∧
    (limitItems (some 10) exItems3).length = shownCount (some 10) exItems3 :=
  ⟨by decide, (render_heading_counts (some 10) ("S".toList) exItems3 (by decide)).1⟩

/-- C5 counterexample: with global include list ["security"] and a source
config carrying the explicit empty override, the ACL adapter still drops the
non-matching entry (it ignores per-source keyword config), while the Hacker
News adapter honours the override and keeps it — refuting the claim that the
override bypasses the global include requirement for every adapter. -/
theorem keyword_override_cex :
    cfgOv.includeKw = some [] ∧
    gfSec.includeKeywords ≠ [] ∧
    aclFetch cfgOv gfSec 0 [cookingEntry] = [] ∧
    (hnProcessEntry cfgOv gfSec 0 cookingEntry).isSome = true := by
  refine ⟨rfl, by decide, by decide, by decide⟩

/-- C5 (amended): an empty keyword list never excludes an item
(`anyKeywordMatch` is true on an empty list); under `_effective_keywords` a
present key wins (even an explicit empty list) and an absent key inherits the
global list, so in adapters using it (hn, hackernoon, reddit, openreview) an
explicit empty include override makes the global include list irrelevant; the
ACL adapter ignores per-source keyword config entirely, so the override does
not bypass a non-empty global include list there. -/
theorem keyword_override (g : List Str) (hay : Str) (cfg : SrcConfig)
    (gf : GlobalFilters) (now : Int) (e : FeedEntry)
    (hc : cfg.includeKw = some []) :
    anyKeywordMatch hay [] = true ∧
    effectiveKeywords (some []) g = [] ∧
    effectiveKeywords none g = g ∧
    hnProcessEntry cfg gf now e
      = hnProcessEntry cfg { gf with includeKeywords := [] } now e ∧
    (∀ cfg₂ : SrcConfig, aclFetch cfg gf now [e] = aclFetch cfg₂ gf now [e]) := by
  refine ⟨rfl, rfl, rfl, ?_, fun cfg₂ => rfl⟩
  unfold hnProcessEntry
  rw [hc]
  rfl

/-- Witness for C5's amended statement at the concrete override config. -/
theorem keyword_override_witness :
    cfgOv.includeKw = some [] ∧
    hnProcessEntry cfgOv gfSec 0 cookingEntry
      = hnProcessEntry cfgOv { gfSec with includeKeywords := [] } 0 cookingEntry :=
  ⟨rfl, (keyword_override [] [] cfgOv gfSec 0 cookingEntry rfl).2.2.2.1⟩

/-- C6 counterexample: an item without a published timestamp is removed by
the normalization loop of digest_helpers.fetch_items, so it does not survive
the pipeline to recency filtering, refuting the claim for that pipeline. -/
theorem undated_dropped_cex :
    uRaw.published = none ∧
    normalizeHelpers ("arxiv".toList) 100 [uRaw] = [] :=
  ⟨rfl, rfl⟩

/-- C6 (amended): the adapters' recency check (`isRecent`, modelled from the
spec) is always true on an absent timestamp, so undated items pass the
adapters' recency filter; but the digest_helpers pipeline drops every
undated item during normalization in `fetch_items` — its output is exactly
the dated items — so undated items never reach `filter_items_by_hours`
there. -/
theorem undated_recency_modelled (d now : Int) (logical : Str) (limit : Nat)
    (l : List RawHelperItem) :
    isRecent none d now = true ∧
    normalizeHelpers logical limit l
      = ((l.take limit).filter (fun it => it.published.isSome)).map
          (normalizeOne logical) := by
  constructor
  · unfold isRecent
    split
    · rfl
    · rfl
  · unfold normalizeHelpers
    generalize (l.take limit) = L
    induction L with
    | nil => rfl
    | cons x t ih =>
      cases hx : x.published with
      | none => simp [List.filterMap_cons, List.filter_cons, hx, ih]
      | some n => simp [List.filterMap_cons, List.filter_cons, hx, ih]

/-- C2: a single OpenReview note whose content lacks a `"title"` key makes
the whole adapter fetch raise (`Except.error` here, `AttributeError` in
Python) out of the adapter boundary, while a failed per-venue provider call
is caught and degrades to empty results — evaluating the embedded code at
the failing input. -/
theorem openreview_note_error_propagates :
    orFetch cfgEmpty gfEmpty 0 [Except.ok [badNote]]
      = Except.error ("AttributeError: NoneType object has no attribute get".toList) ∧
    orFetch cfgEmpty gfEmpty 0 [Except.error (), Except.ok []] = Except.ok [] :=
  ⟨rfl, rfl⟩

theorem escChar_safe (c : Char) : '<' ∉ escChar c ∧ '>' ∉ escChar c := by
  unfold escChar
  by_cases h1 : c = '&'
  · rw [if_pos h1]
    exact ⟨by decide, by decide⟩
  · rw [if_neg h1]
    by_cases h2 : c = '<'
    · rw [if_pos h2]
      exact ⟨by decide, by decide⟩
    · rw [if_neg h2]
      by_cases h3 : c = '>'
      · rw [if_pos h3]
        exact ⟨by decide, by decide⟩
      · rw [if_neg h3]
        constructor
        · intro hm
          exact h2 (List.mem_singleton.mp hm).symm
        · intro hm
          exact h3 (List.mem_singleton.mp hm).symm

theorem escapeHtml_safe (s : Str) : '<' ∉ escapeHtml s ∧ '>' ∉ escapeHtml s := by
  induction s with
  | nil => exact ⟨by decide, by decide⟩
  | cons c t ih =>
    have h1 : escapeHtml (c :: t) = escChar c ++ escapeHtml t := by
      unfold escapeHtml
      rw [List.map_cons, List.flatten_cons]
    rw [h1]
    constructor
    · intro hm
      rcases List.mem_append.mp hm with hm | hm
      · exact (escChar_safe c).1 hm
      · exact ih.1 hm
    · intro hm
      rcases List.mem_append.mp hm with hm | hm
      · exact (escChar_safe c).2 hm
      · exact ih.2 hm

/-- C10: `render_html` escapes `&`, `<`, `>` only in the title — the escaped
title contains no raw angle bracket — while the summary and the link are
interpolated verbatim into the `<li>` entry; at the concrete item whose
summary holds `<script>` markup, the rendered entry contains that markup
unescaped. -/
theorem html_escape_only_title (it : Item) (hs : renderSummary it ≠ []) :
    (∀ s : Str, '<' ∉ escapeHtml s ∧ '>' ∉ escapeHtml s) ∧
    liFor it
      = ("<li><a href=\"".toList ++ htmlLink it ++ "\">".toList
          ++ escapeHtml (renderTitle it) ++ "</a>".toList ++ "<br><small>".toList)
        ++ renderSummary it
        ++ ("</small>".toList ++ "</li>".toList) ∧
    containsSub ("<script>".toList) (liFor exEvil) = true ∧
    escapeHtml ("<b>Hi</b>".toList) = "&lt;b&gt;Hi&lt;/b&gt;".toList := by
  refine ⟨escapeHtml_safe, ?_, by decide, by decide⟩
  unfold liFor
  rw [if_neg hs]
  simp [List.append_assoc]

/-- Witness for C10 at the item carrying `<script>` markup in its summary. -/
theorem html_escape_only_title_witness :
    renderSummary exEvil ≠ [] ∧
    liFor exEvil
      = ("<li><a href=\"".toList ++ htmlLink exEvil ++ "\">".toList
          ++ escapeHtml (renderTitle exEvil) ++ "</a>".toList ++ "<br><small>".toList)
        ++ renderSummary exEvil
        ++ ("</small>".toList ++ "</li>".toList) :=
  ⟨by decide, (html_escape_only_title exEvil (by decide)).2.1⟩

end Newsfeed
